import Mathlib

/-!
Verification of the monobump release planner.

This file gives a shallow embedding, in Lean, of the core algorithms of the
monobump tool (src/Bump.ts, src/Cascade.ts and the explicit-mode entry point
in main.ts), together with theorems checking the natural-language
specification of the tool against that embedding.

Modelling conventions:
* JavaScript `Map` objects are association lists (`List (String × α)`) with
  insertion-ordered keys; `Map.set` overwrites in place, `Map.get` finds the
  first matching key.
* JavaScript `Set` objects are insertion-ordered duplicate-free lists;
  `new Set(xs)` is `setOfList xs`.
* `while` loops are modelled with explicit fuel; the fuel chosen is proved
  (or checked on the concrete inputs used) to be large enough that the loop
  reaches its fixed point, so the fueled function agrees with the source loop.
* Thrown exceptions are modelled with `Option`/`Except` results.
* The manifest reader (an external collaborator that supplies each package's
  workspace dependencies) is modelled by a `deps` field on the package record.
* Writing a manifest (the `updatePackageVersion` collaborator) is modelled by
  an explicit write log of `(path, newVersion)` pairs.
-/

namespace Monobump

/-- Bump directive, from `type BumpType` in Bump.ts. -/
inductive BumpType where
  | major
  | minor
  | patch
  | alpha
  | beta
  | rc
deriving Repr, DecidableEq

/-- Prerelease channel, from `type PrereleaseType` in Bump.ts. -/
inductive PrereleaseType where
  | alpha
  | beta
  | rc
deriving Repr, DecidableEq

/-- Channel-to-tag mapping, from `const prereleasePrefix` in Bump.ts. -/
def prereleaseTag : PrereleaseType → String
  | .alpha => "a"
  | .beta => "b"
  | .rc => "rc"

/-- The bump directive that names a prerelease channel. -/
def channelDirective : PrereleaseType → BumpType
  | .alpha => .alpha
  | .beta => .beta
  | .rc => .rc

/-- Prerelease component of a parsed version, from `ParsedVersion` in Bump.ts. -/
structure Prerelease where
  type : PrereleaseType
  num : Nat
deriving Repr, DecidableEq

/-- Parsed version components, from `interface ParsedVersion` in Bump.ts. -/
structure ParsedVersion where
  major : Nat
  minor : Nat
  patch : Nat
  prerelease : Option Prerelease := none
deriving Repr, DecidableEq

/-- Parse a maximal nonempty run of decimal digits, returning its value and
the rest of the characters.  Models one `(\d+)` group of the version regex in
`parseVersion` (Bump.ts): `\d+` is greedy and the following characters in the
pattern are never digits, so greedy matching without backtracking is exact. -/
def parseNatChars (cs : List Char) : Option (Nat × List Char) :=
  let ds := cs.takeWhile (fun c => c.isDigit)
  if ds.isEmpty then none
  else some (ds.foldl (fun acc c => acc * 10 + (c.toNat - 48)) 0,
             cs.dropWhile (fun c => c.isDigit))

/-- Numeric value of a digit run, as computed by `parseNatChars`. -/
def digitsToNat (ds : List Char) : Nat :=
  ds.foldl (fun acc c => acc * 10 + (c.toNat - 48)) 0

/-- Parse the prerelease number after a channel tag; the regex requires the
digits to run to the end of the string (`(\d+)$`). -/
def parsePreNum (t : PrereleaseType) (cs : List Char) : Option (Option Prerelease) :=
  match parseNatChars cs with
  | some (n, []) => some (some { type := t, num := n })
  | _ => none

/-- Parse the optional `-(a|b|rc)(\d+)$` tail of the version regex. -/
def parseSuffixChars (cs : List Char) : Option (Option Prerelease) :=
  match cs with
  | [] => some none
  | '-' :: rest =>
    match rest with
    | 'a' :: rest2 => parsePreNum .alpha rest2
    | 'b' :: rest2 => parsePreNum .beta rest2
    | 'r' :: 'c' :: rest2 => parsePreNum .rc rest2
    | _ => none
  | _ => none

/-- Character-level version parser: the regex
`^(\d+)\.(\d+)\.(\d+)(?:-(a|b|rc)(\d+))?$` from `parseVersion` in Bump.ts. -/
def parseVersionChars (cs : List Char) : Option ParsedVersion :=
  match parseNatChars cs with
  | none => none
  | some (maj, cs1) =>
    match cs1 with
    | '.' :: cs2 =>
      match parseNatChars cs2 with
      | none => none
      | some (mnr, cs3) =>
        match cs3 with
        | '.' :: cs4 =>
          match parseNatChars cs4 with
          | none => none
          | some (pat, cs5) =>
            match parseSuffixChars cs5 with
            | none => none
            | some pre => some { major := maj, minor := mnr, patch := pat, prerelease := pre }
        | _ => none
    | _ => none

/-- Embeds `parseVersion` from Bump.ts.  The source throws on a failed match;
here a hard parse failure is `none`. -/
def parseVersion (version : String) : Option ParsedVersion :=
  parseVersionChars version.toList

/-- Embeds `formatVersion` from Bump.ts. -/
def formatVersion (v : ParsedVersion) : String :=
  let base := toString v.major ++ "." ++ toString v.minor ++ "." ++ toString v.patch
  match v.prerelease with
  | some p => base ++ "-" ++ prereleaseTag p.type ++ toString p.num
  | none => base

/-- Embeds the prerelease branch of `bumpVersion` in Bump.ts (directives
alpha/beta/rc). -/
def bumpPre (v : ParsedVersion) (t : PrereleaseType) : String :=
  match v.prerelease with
  | some p =>
    if p.type = t then
      formatVersion { v with prerelease := some { type := t, num := p.num + 1 } }
    else
      formatVersion { v with prerelease := some { type := t, num := 1 } }
  | none =>
    formatVersion { v with minor := v.minor + 1, patch := 0,
                           prerelease := some { type := t, num := 1 } }

/-- Embeds `bumpVersion` from Bump.ts.  A parse failure (source: thrown
`Invalid version` error) is `none`. -/
def bumpVersion (version : String) (ty : BumpType) : Option String :=
  match parseVersion version with
  | none => none
  | some v =>
    match ty with
    | .major =>
      match v.prerelease with
      | some _ => some (formatVersion { major := v.major + 1, minor := 0, patch := 0,
                                        prerelease := none })
      | none => some (toString (v.major + 1) ++ ".0.0")
    | .minor =>
      match v.prerelease with
      | some _ => some (formatVersion { major := v.major, minor := v.minor + 1, patch := 0,
                                        prerelease := none })
      | none => some (toString v.major ++ "." ++ toString (v.minor + 1) ++ ".0")
    | .patch =>
      match v.prerelease with
      | some _ => some (formatVersion { major := v.major, minor := v.minor, patch := v.patch,
                                        prerelease := none })
      | none => some (toString v.major ++ "." ++ toString v.minor ++ "." ++ toString (v.patch + 1))
    | .alpha => some (bumpPre v .alpha)
    | .beta => some (bumpPre v .beta)
    | .rc => some (bumpPre v .rc)

/-- Lookup in a JavaScript `Map` keyed by strings: first entry with the key. -/
def mapGet {α : Type} (m : List (String × α)) (k : String) : Option α :=
  (m.find? (fun e => decide (e.1 = k))).map (fun e => e.2)

/-- JavaScript `Map.set`: overwrite in place if the key exists, else append. -/
def mapSet {α : Type} (m : List (String × α)) (k : String) (v : α) : List (String × α) :=
  if (m.find? (fun e => decide (e.1 = k))).isSome then
    m.map (fun e => if e.1 = k then (k, v) else e)
  else m ++ [(k, v)]

/-- JavaScript `Set.add`: append if not already present. -/
def setAdd (l : List String) (x : String) : List String :=
  if x ∈ l then l else l ++ [x]

/-- JavaScript `new Set(xs)`: insertion-ordered deduplication. -/
def setOfList (l : List String) : List String :=
  l.foldl setAdd []

/-- A workspace package as the cascade sees it: the `Package` record from
Pnpm.ts plus the package's workspace dependencies.  In the source the
dependencies are read from the package's manifest by `getWorkspaceDeps`
(an external manifest-reader collaborator); here they are supplied as the
`deps` field. -/
structure Package where
  name : String
  version : String
  path : String
  isPrivate : Bool
  deps : List String
deriving Repr, DecidableEq

/-- Embeds `buildDependencyGraph` from Cascade.ts: a `Map` from package name
to the package (with its workspace dependencies), in package-list order. -/
def buildDependencyGraph (packages : List Package) : List (String × Package) :=
  packages.foldl (fun graph pkg => mapSet graph pkg.name pkg) []

/-- One entry of the scan inside the `while` loop of `findDependents`
(Cascade.ts): skip packages already affected, otherwise look for a first
dependency that is affected; on a hit, add the package and record the
triggering dependency.  State is (allAffected, dependencyReasons, hasChanges). -/
def findDependentsStep (st : List String × List (String × String) × Bool)
    (entry : String × Package) : List String × List (String × String) × Bool :=
  if entry.1 ∈ st.1 then st
  else
    match entry.2.deps.find? (fun d => decide (d ∈ st.1)) with
    | some dep => (st.1 ++ [entry.1], mapSet st.2.1 entry.1 dep, true)
    | none => st

/-- One full pass of the `while` loop of `findDependents` over the graph
entries (additions made during the pass are visible to later entries,
as with the mutated JavaScript `Set`). -/
def findDependentsPass (graph : List (String × Package)) (aff : List String)
    (rs : List (String × String)) : List String × List (String × String) × Bool :=
  graph.foldl findDependentsStep (aff, rs, false)

/-- The `while (hasChanges)` loop of `findDependents`, with fuel.  Each
productive pass adds at least one graph key to the affected set, so
`graph.length + 1` passes always reach the fixed point. -/
def findDependentsLoop (graph : List (String × Package)) :
    Nat → List String → List (String × String) → List String × List (String × String)
  | 0, aff, rs => (aff, rs)
  | n + 1, aff, rs =>
    if (findDependentsPass graph aff rs).2.2 then
      findDependentsLoop graph n (findDependentsPass graph aff rs).1
        (findDependentsPass graph aff rs).2.1
    else ((findDependentsPass graph aff rs).1, (findDependentsPass graph aff rs).2.1)

/-- Embeds `findDependents` from Cascade.ts. -/
def findDependents (graph : List (String × Package)) (changedPackages : List String) :
    List String × List (String × String) :=
  findDependentsLoop graph (graph.length + 1) (setOfList changedPackages) []

/-- Embeds `buildDependencyChain` from Cascade.ts, with fuel for the `while`
loop (the chains produced by `findDependents` are proved acyclic below, and
`affected.length` fuel is proved sufficient). -/
def buildDependencyChain (fuel : Nat) (pkgName : String)
    (depReasons : List (String × String)) : List String :=
  match fuel with
  | 0 => []
  | n + 1 =>
    match mapGet depReasons pkgName with
    | some dep => dep :: buildDependencyChain n dep depReasons
    | none => []

/-- JavaScript `Array.join(sep)`. -/
def joinSep (sep : String) : List String → String
  | [] => ""
  | [x] => x
  | x :: y :: xs => x ++ sep ++ joinSep sep (y :: xs)

/-- Embeds `buildReasonStrings` from Cascade.ts. -/
def buildReasonStrings (affected : List String) (changed : List String)
    (depReasons : List (String × String)) : List (String × String) :=
  affected.foldl
    (fun reasons pkgName =>
      if pkgName ∈ changed then mapSet reasons pkgName "changed"
      else
        mapSet reasons pkgName
          ("depends on " ++
            joinSep " -> " (buildDependencyChain affected.length pkgName depReasons)))
    []

/-- The `getPublicPackages` helper from Cascade.ts. -/
def getPublicPackages (packages : List Package) : List Package × List String :=
  let pub := packages.filter (fun p => !p.isPrivate)
  (pub, pub.map (fun p => p.name))

/-- Embeds `getPackagesToBump` from Cascade.ts (upward / auto-detect mode):
changed public packages plus their transitive dependents. -/
def getPackagesToBump (packages : List Package) (changedPackages : List String) :
    List String × List (String × String) :=
  let pub := getPublicPackages packages
  let changedPublic := setOfList (changedPackages.filter (fun n => decide (n ∈ pub.2)))
  let graph := buildDependencyGraph pub.1
  let res := findDependents graph changedPublic
  (res.1, buildReasonStrings res.1 changedPublic res.2)

/-- One dependency check inside the explicit-mode loop of
`getPackagesWithChangedDeps` (Cascade.ts): pull in a dependency that has
changes and is not yet selected. -/
def depAddStep (changedPackages : List String) (pkgName : String)
    (st : List String × List (String × String) × Bool) (depName : String) :
    List String × List (String × String) × Bool :=
  if depName ∈ changedPackages ∧ depName ∉ st.1 then
    (st.1 ++ [depName], mapSet st.2.1 depName ("dependency of " ++ pkgName), true)
  else st

/-- Handling of one selected package in the explicit-mode loop: look it up in
the (public) dependency graph and scan its dependencies. -/
def changedDepsStep (graph : List (String × Package)) (changedPackages : List String)
    (st : List String × List (String × String) × Bool) (pkgName : String) :
    List String × List (String × String) × Bool :=
  match mapGet graph pkgName with
  | none => st
  | some pkg => pkg.deps.foldl (depAddStep changedPackages pkgName) st

/-- One full pass of the explicit-mode `while` loop: scan a snapshot of the
current `toBump` set. -/
def changedDepsPass (graph : List (String × Package)) (changedPackages : List String)
    (tb : List String) (rs : List (String × String)) :
    List String × List (String × String) × Bool :=
  tb.foldl (changedDepsStep graph changedPackages) (tb, rs, false)

/-- The explicit-mode `while (hasChanges)` loop, with fuel. -/
def changedDepsLoop (graph : List (String × Package)) (changedPackages : List String) :
    Nat → List String → List (String × String) → List String × List (String × String)
  | 0, tb, rs => (tb, rs)
  | n + 1, tb, rs =>
    if (changedDepsPass graph changedPackages tb rs).2.2 then
      changedDepsLoop graph changedPackages n (changedDepsPass graph changedPackages tb rs).1
        (changedDepsPass graph changedPackages tb rs).2.1
    else ((changedDepsPass graph changedPackages tb rs).1,
          (changedDepsPass graph changedPackages tb rs).2.1)

/-- Embeds `getPackagesWithChangedDeps` from Cascade.ts (downward / explicit
mode): the specified public packages plus, recursively, their dependencies
that have changes.  Every productive pass of the loop adds a member of
`changedPackages`, and the set starts from the deduplicated specified public
names, so `specified.length + changed.length + 1` passes reach the fixed
point (proved below). -/
def getPackagesWithChangedDeps (packages : List Package)
    (specifiedPackages : List String) (changedPackages : List String) :
    List String × List (String × String) :=
  let pub := getPublicPackages packages
  let specifiedPublic := setOfList (specifiedPackages.filter (fun n => decide (n ∈ pub.2)))
  let graph := buildDependencyGraph pub.1
  let rs := specifiedPublic.foldl (fun m n => mapSet m n "specified") []
  changedDepsLoop graph changedPackages
    (specifiedPublic.length + changedPackages.length + 1) specifiedPublic rs

/-- Result of bumping one package, from `interface BumpResult` in Bump.ts. -/
structure BumpResult where
  package : String
  oldVersion : String
  newVersion : String
  reason : String
deriving Repr, DecidableEq

/-- The JavaScript expression `reasons.get(pkg.name) || "changed"`:
a missing (or falsy, i.e. empty) reason defaults to `"changed"`. -/
def reasonOrChanged (r : Option String) : String :=
  match r with
  | some s => if s = "" then "changed" else s
  | none => "changed"

/-- Recursion underlying `bumpPackages` (Bump.ts): walk the packages in
workspace discovery order, bump each selected one, write its manifest unless
this is a dry run, and collect results.  The first component is the returned
result list (`none` when `bumpVersion` threw), the second the manifest write
log of `(path, newVersion)` pairs. -/
def bumpPackagesAux (toBump : List String) (reasons : List (String × String))
    (ty : BumpType) (dryRun : Bool) :
    List Package → Option (List BumpResult) × List (String × String)
  | [] => (some [], [])
  | pkg :: rest =>
    if pkg.name ∈ toBump then
      match bumpVersion pkg.version ty with
      | none => (none, [])
      | some newV =>
        let write := if dryRun then [] else [(pkg.path, newV)]
        let tail := bumpPackagesAux toBump reasons ty dryRun rest
        (tail.1.map
          (fun results =>
            { package := pkg.name, oldVersion := pkg.version, newVersion := newV,
              reason := reasonOrChanged (mapGet reasons pkg.name) } :: results),
         write ++ tail.2)
    else bumpPackagesAux toBump reasons ty dryRun rest

/-- Embeds `bumpPackages` from Bump.ts. -/
def bumpPackages (packages : List Package) (toBump : List String)
    (reasons : List (String × String)) (ty : BumpType) (dryRun : Bool) :
    Option (List BumpResult) × List (String × String) :=
  bumpPackagesAux toBump reasons ty dryRun packages

/-- Embeds `computeExplicitModeCascade` from main.ts: validate every requested
package name against the workspace, failing hard (source: thrown
`Unknown package(s)` error) before any cascade work when one is unknown. -/
def computeExplicitModeCascade (packages : List Package)
    (requestedPackages : List String) (changed : List String) :
    Except String (List String × List (String × String)) :=
  let packageNames := packages.map (fun p => p.name)
  let invalidPackages := requestedPackages.filter (fun p => !(packageNames.contains p))
  if invalidPackages.isEmpty then
    .ok (getPackagesWithChangedDeps packages (setOfList requestedPackages) changed)
  else
    .error ("Unknown package(s): " ++ joinSep ", " invalidPackages)

/-- Position of the first occurrence of a string in a list (length if absent);
used to order the affected set by insertion time. -/
def rank : List String → String → Nat
  | [], _ => 0
  | y :: ys, x => if y = x then 0 else rank ys x + 1

/-- Invariant of the `findDependents` loop state, relative to the initial
changed set `c0`: the changed packages are affected; every recorded reason
edge points from a later-added, non-changed package to an earlier-added one;
and every affected package is changed or has a recorded reason. -/
def UpInv (c0 aff : List String) (rs : List (String × String)) : Prop :=
  (∀ x ∈ c0, x ∈ aff) ∧
  (∀ e ∈ rs, e.1 ∈ aff ∧ e.2 ∈ aff ∧ rank aff e.2 < rank aff e.1 ∧ e.1 ∉ c0) ∧
  (∀ x ∈ aff, x ∈ c0 ∨ ∃ d, (x, d) ∈ rs)

/-- A cascade step function either leaves the state unchanged or strictly
grows the selected set and raises the change flag. -/
def GrowStep {α : Type}
    (f : List String × List (String × String) × Bool → α →
         List String × List (String × String) × Bool) : Prop :=
  ∀ st a, f st a = st ∨ (st.1.length < (f st a).1.length ∧ (f st a).2.2 = true)

/-- Nonempty run of decimal digits. -/
def DigitsNE (ds : List Char) : Prop :=
  ds ≠ [] ∧ ∀ c ∈ ds, c.isDigit = true

/-- Modelled from the spec: the claimed shape of an accepted version suffix,
`-{a|b|rc}{N}` with N a digit run whose value satisfies `ok`; `ok`
instantiates to `0 < n` for the claimed positive-N shape and to `True` for
the shape the code actually accepts. -/
def SufShape (ok : Nat → Prop) (suf : List Char) : Prop :=
  suf = [] ∨
  ∃ tag ds, suf = '-' :: (tag ++ ds) ∧
    (tag = ['a'] ∨ tag = ['b'] ∨ tag = ['r', 'c']) ∧ DigitsNE ds ∧ ok (digitsToNat ds)

/-- Modelled from the spec: a string of shape `MAJOR.MINOR.PATCH` optionally
followed by `-{a|b|rc}{N}`, with the prerelease number constrained by `ok`. -/
def VersionShape (ok : Nat → Prop) (s : String) : Prop :=
  ∃ d1 d2 d3 suf,
    s.toList = d1 ++ '.' :: (d2 ++ '.' :: (d3 ++ suf)) ∧
    DigitsNE d1 ∧ DigitsNE d2 ∧ DigitsNE d3 ∧ SufShape ok suf

/-- Character sequence of a prerelease channel tag, for stating shapes. -/
def tagChars : PrereleaseType → List Char
  | .alpha => ['a']
  | .beta => ['b']
  | .rc => ['r', 'c']

/-- Modelled from the spec: `bumpVersion` "increments exactly one of the
major/minor/patch components by one and resets all components of lower
significance to 0" (relating input and output base components). -/
def IncrementsExactlyOne (vin vout : ParsedVersion) : Prop :=
  (vout.major = vin.major + 1 ∧ vout.minor = 0 ∧ vout.patch = 0) ∨
  (vout.major = vin.major ∧ vout.minor = vin.minor + 1 ∧ vout.patch = 0) ∨
  (vout.major = vin.major ∧ vout.minor = vin.minor ∧ vout.patch = vin.patch + 1)

/-! Sanity checks of the embedding on concrete inputs. -/

example : parseVersion "1.2.3" = some { major := 1, minor := 2, patch := 3 } := by decide
example : parseVersion "0.7.0-a2" =
    some { major := 0, minor := 7, patch := 0,
           prerelease := some { type := .alpha, num := 2 } } := by decide
example : parseVersion "1.2.3-rc10" =
    some { major := 1, minor := 2, patch := 3,
           prerelease := some { type := .rc, num := 10 } } := by decide
example : parseVersion "1.2" = none := by decide
example : parseVersion "1.2.3-c1" = none := by decide
example : parseVersion "1.2.3-a" = none := by decide
example : parseVersion "1.2.3-a1b" = none := by decide
example : parseVersion "1.2.3.4" = none := by decide
example : bumpVersion "1.2.3" .patch = some "1.2.4" := by decide
example : bumpVersion "1.2.3" .minor = some "1.3.0" := by decide
example : bumpVersion "1.2.3" .major = some "2.0.0" := by decide
example : bumpVersion "0.7.0" .alpha = some "0.8.0-a1" := by decide
example : bumpVersion "0.8.0-a1" .alpha = some "0.8.0-a2" := by decide
example : bumpVersion "0.8.0-a2" .beta = some "0.8.0-b1" := by decide
example : bumpVersion "0.8.0-b1" .patch = some "0.8.0" := by decide
example : bumpVersion "1.2.3-a7" .patch = some "1.2.3" := by decide
example : bumpVersion "1.2.3-a1" .major = some "2.0.0" := by decide
example : bumpVersion "1.2.3-a1" .minor = some "1.3.0" := by decide
example : parseVersion "1.2.3-a0" =
    some { major := 1, minor := 2, patch := 3,
           prerelease := some { type := .alpha, num := 0 } } := by decide

example :
    getPackagesToBump
      [{ name := "pkg-a", version := "1.0.0", path := "packages/pkg-a", isPrivate := false,
         deps := [] },
       { name := "pkg-b", version := "1.0.0", path := "packages/pkg-b", isPrivate := false,
         deps := ["pkg-a"] },
       { name := "pkg-c", version := "1.0.0", path := "packages/pkg-c", isPrivate := false,
         deps := ["pkg-b"] }]
      ["pkg-a"] =
    (["pkg-a", "pkg-b", "pkg-c"],
     [("pkg-a", "changed"), ("pkg-b", "depends on pkg-a"),
      ("pkg-c", "depends on pkg-b -> pkg-a")]) := by decide

example :
    (getPackagesWithChangedDeps
      [{ name := "pkg-app", version := "1.0.0", path := "packages/app", isPrivate := false,
         deps := ["pkg-internal"] },
       { name := "pkg-internal", version := "1.0.0", path := "packages/internal",
         isPrivate := true, deps := [] }]
      ["pkg-app"] ["pkg-internal"]).1 = ["pkg-app", "pkg-internal"] := by decide

example :
    (getPackagesWithChangedDeps
      [{ name := "pkg-p", version := "1.0.0", path := "packages/p", isPrivate := false,
         deps := ["pkg-d"] },
       { name := "pkg-d", version := "1.0.0", path := "packages/d", isPrivate := false,
         deps := [] },
       { name := "pkg-x", version := "1.0.0", path := "packages/x", isPrivate := true,
         deps := [] }]
      ["pkg-p", "pkg-d", "pkg-x"] []) =
    (["pkg-p", "pkg-d"], [("pkg-p", "specified"), ("pkg-d", "specified")]) := by decide


/-! Library lemmas about the JavaScript `Set`/`Map` models. -/

theorem mem_setAdd {l : List String} {x y : String} :
    y ∈ setAdd l x ↔ y ∈ l ∨ y = x := by
  unfold setAdd
  split
  · rename_i hx
    constructor
    · exact Or.inl
    · rintro (hy | rfl)
      · exact hy
      · exact hx
  · simp [List.mem_append]

theorem mem_foldl_setAdd (l : List String) (acc : List String) (x : String) :
    x ∈ l.foldl setAdd acc ↔ x ∈ acc ∨ x ∈ l := by
  induction l generalizing acc with
  | nil => simp
  | cons a l ih =>
    simp only [List.foldl_cons, ih, mem_setAdd, List.mem_cons]
    tauto

theorem mem_setOfList {l : List String} {x : String} : x ∈ setOfList l ↔ x ∈ l := by
  simp [setOfList, mem_foldl_setAdd]

theorem nodup_setAdd {l : List String} (h : l.Nodup) (x : String) : (setAdd l x).Nodup := by
  unfold setAdd
  split
  · exact h
  · rename_i hx
    simp [List.nodup_append, h, hx]

theorem nodup_setOfList (l : List String) : (setOfList l).Nodup := by
  have key : ∀ (m acc : List String), acc.Nodup → (m.foldl setAdd acc).Nodup := by
    intro m
    induction m with
    | nil => exact fun acc h => h
    | cons a m ih => exact fun acc h => ih _ (nodup_setAdd h a)
  exact key l [] List.nodup_nil

theorem mapGet_eq_none {α : Type} {m : List (String × α)} {k : String} :
    mapGet m k = none ↔ ∀ e ∈ m, e.1 ≠ k := by
  simp [mapGet, List.find?_eq_none]

theorem mapGet_mem {α : Type} {m : List (String × α)} {k : String} {v : α}
    (h : mapGet m k = some v) : (k, v) ∈ m := by
  induction m with
  | nil => cases h
  | cons e m ih =>
    obtain ⟨a, b⟩ := e
    by_cases hk : a = k
    · have hfind : List.find? (fun e : String × α => decide (e.1 = k)) ((a, b) :: m)
          = some (a, b) := List.find?_cons_of_pos _ (decide_eq_true hk)
      unfold mapGet at h
      rw [hfind] at h
      simp at h
      subst hk
      subst h
      exact List.mem_cons_self _ _
    · have hfind : List.find? (fun e : String × α => decide (e.1 = k)) ((a, b) :: m)
          = List.find? (fun e : String × α => decide (e.1 = k)) m :=
        List.find?_cons_of_neg _ (fun hc => hk (of_decide_eq_true hc))
      unfold mapGet at h
      rw [hfind] at h
      exact List.mem_cons_of_mem _ (ih h)

theorem mapSet_append {α : Type} {m : List (String × α)} {k : String} {v : α}
    (h : ∀ e ∈ m, e.1 ≠ k) : mapSet m k v = m ++ [(k, v)] := by
  have hf : m.find? (fun e => decide (e.1 = k)) = none :=
    List.find?_eq_none.mpr (by simpa using h)
  simp [mapSet, hf]

/-! Library lemmas about `rank`. -/

theorem rank_cons (y : String) (ys : List String) (x : String) :
    rank (y :: ys) x = if y = x then 0 else rank ys x + 1 := rfl

theorem rank_lt_length {l : List String} {x : String} (h : x ∈ l) :
    rank l x < l.length := by
  induction l with
  | nil => cases h
  | cons y ys ih =>
    rw [rank_cons]
    split
    · simp
    · rename_i hne
      have hx : x ∈ ys := by
        cases List.mem_cons.mp h with
        | inl he => exact absurd he.symm hne
        | inr h2 => exact h2
      simpa [Nat.succ_lt_succ_iff] using ih hx

theorem rank_append_of_mem {l l2 : List String} {x : String} (h : x ∈ l) :
    rank (l ++ l2) x = rank l x := by
  induction l with
  | nil => cases h
  | cons y ys ih =>
    rw [List.cons_append, rank_cons, rank_cons]
    split
    · rfl
    · rename_i hne
      have hx : x ∈ ys := by
        cases List.mem_cons.mp h with
        | inl he => exact absurd he.symm hne
        | inr h2 => exact h2
      rw [ih hx]

theorem rank_append_self {l : List String} {x : String} (h : x ∉ l) :
    rank (l ++ [x]) x = l.length := by
  induction l with
  | nil => simp [rank_cons]
  | cons y ys ih =>
    rw [List.mem_cons, not_or] at h
    rw [List.cons_append, rank_cons, if_neg (fun e => h.1 e.symm), List.length_cons,
      ih h.2]

/-! Generic lemmas about folds of cascade step functions. -/

theorem foldl_preserve {σ α : Type} (P : σ → Prop) {f : σ → α → σ}
    (hf : ∀ s a, P s → P (f s a)) :
    ∀ (l : List α) (s : σ), P s → P (l.foldl f s) := by
  intro l
  induction l with
  | nil => exact fun s h => h
  | cons a l ih => exact fun s h => ih _ (hf s a h)

theorem growStep_foldl {α : Type}
    {f : List String × List (String × String) × Bool → α →
         List String × List (String × String) × Bool}
    (hf : GrowStep f) :
    ∀ (l : List α) (st), l.foldl f st = st ∨
      (st.1.length < (l.foldl f st).1.length ∧ (l.foldl f st).2.2 = true) := by
  intro l
  induction l with
  | nil => exact fun st => Or.inl rfl
  | cons a l ih =>
    intro st
    simp only [List.foldl_cons]
    cases hf st a with
    | inl he => rw [he]; exact ih st
    | inr hg =>
      cases ih (f st a) with
      | inl he => rw [he]; exact Or.inr hg
      | inr hg2 => exact Or.inr ⟨Nat.lt_trans hg.1 hg2.1, hg2.2⟩

theorem growStep_foldl_false {α : Type}
    {f : List String × List (String × String) × Bool → α →
         List String × List (String × String) × Bool}
    (hf : GrowStep f) :
    ∀ (l : List α) (st), (l.foldl f st).2.2 = false →
      l.foldl f st = st ∧ ∀ a ∈ l, f st a = st := by
  intro l
  induction l with
  | nil => exact fun st _ => ⟨rfl, fun a ha => absurd ha (List.not_mem_nil a)⟩
  | cons a l ih =>
    intro st h
    simp only [List.foldl_cons] at h ⊢
    cases hf st a with
    | inl he =>
      rw [he] at h ⊢
      obtain ⟨h1, h2⟩ := ih st h
      refine ⟨h1, fun b hb => ?_⟩
      cases List.mem_cons.mp hb with
      | inl e => exact e ▸ he
      | inr hm => exact h2 b hm
    | inr hg =>
      exfalso
      cases growStep_foldl hf l (f st a) with
      | inl he =>
        rw [he] at h
        exact absurd (hg.2.symm.trans h) (by decide)
      | inr hg2 =>
        exact absurd (hg2.2.symm.trans h) (by decide)

theorem nodup_append_singleton {l : List String} {x : String} (h : l.Nodup) (hx : x ∉ l) :
    (l ++ [x]).Nodup := by
  simp [List.nodup_append, h, hx]

theorem find?_decide_mem {l aff : List String} {dep : String}
    (h : l.find? (fun d => decide (d ∈ aff)) = some dep) : dep ∈ aff ∧ dep ∈ l := by
  induction l with
  | nil => cases h
  | cons a l ih =>
    by_cases ha : a ∈ aff
    · have hfind : List.find? (fun d => decide (d ∈ aff)) (a :: l) = some a :=
        List.find?_cons_of_pos _ (decide_eq_true ha)
      have he : some a = some dep := hfind.symm.trans h
      cases he
      exact ⟨ha, List.mem_cons_self _ _⟩
    · have hfind : List.find? (fun d => decide (d ∈ aff)) (a :: l) =
          List.find? (fun d => decide (d ∈ aff)) l :=
        List.find?_cons_of_neg _ (fun hc => ha (of_decide_eq_true hc))
      rw [hfind] at h
      obtain ⟨h1, h2⟩ := ih h
      exact ⟨h1, List.mem_cons_of_mem _ h2⟩

/-! Step-level facts about the explicit-mode (downward) cascade. -/

theorem growStep_depAddStep (changed : List String) (pkgName : String) :
    GrowStep (depAddStep changed pkgName) := by
  intro st d
  unfold depAddStep
  split
  · exact Or.inr ⟨by simp, rfl⟩
  · exact Or.inl rfl

theorem growStep_changedDepsStep (graph : List (String × Package)) (changed : List String) :
    GrowStep (changedDepsStep graph changed) := by
  intro st p
  unfold changedDepsStep
  cases hm : mapGet graph p with
  | none => exact Or.inl rfl
  | some pkg => exact growStep_foldl (growStep_depAddStep changed p) pkg.deps st

theorem changedDepsPass_cases (graph : List (String × Package)) (changed tb : List String)
    (rs : List (String × String)) :
    changedDepsPass graph changed tb rs = (tb, rs, false) ∨
      (tb.length < (changedDepsPass graph changed tb rs).1.length ∧
       (changedDepsPass graph changed tb rs).2.2 = true) :=
  growStep_foldl (growStep_changedDepsStep graph changed) tb (tb, rs, false)

theorem changedDepsPass_closure (graph : List (String × Package)) (changed tb : List String)
    (rs : List (String × String))
    (h : (changedDepsPass graph changed tb rs).2.2 = false) :
    ∀ p ∈ tb, ∀ pkg, mapGet graph p = some pkg →
      ∀ d ∈ pkg.deps, d ∈ changed → d ∈ tb := by
  obtain ⟨heq, hsteps⟩ :=
    growStep_foldl_false (growStep_changedDepsStep graph changed) tb (tb, rs, false) h
  intro p hp pkg hpkg d hd hch
  have hstep := hsteps p hp
  unfold changedDepsStep at hstep
  rw [hpkg] at hstep
  have h3 : (pkg.deps.foldl (depAddStep changed p) (tb, rs, false)).2.2 = false :=
    congrArg (fun st : List String × List (String × String) × Bool => st.2.2) hstep
  obtain ⟨heq2, hsteps2⟩ :=
    growStep_foldl_false (growStep_depAddStep changed p) pkg.deps (tb, rs, false) h3
  have hd2 := hsteps2 d hd
  unfold depAddStep at hd2
  by_contra hnot
  rw [if_pos ⟨hch, hnot⟩] at hd2
  have hcontr := congrArg (fun st : List String × List (String × String) × Bool => st.2.2) hd2
  simp at hcontr

theorem depAddStep_preserve (changed : List String) (pkgName : String)
    (P : List String → Prop)
    (hadd : ∀ tb d, P tb → d ∈ changed → d ∉ tb → P (tb ++ [d])) :
    ∀ st d, P st.1 → P ((depAddStep changed pkgName st d).1) := by
  intro st d h
  unfold depAddStep
  split
  · rename_i hc
    exact hadd st.1 d h hc.1 hc.2
  · exact h

theorem changedDepsStep_preserve (graph : List (String × Package)) (changed : List String)
    (P : List String → Prop)
    (hadd : ∀ tb d, P tb → d ∈ changed → d ∉ tb → P (tb ++ [d])) :
    ∀ st p, P st.1 → P ((changedDepsStep graph changed st p).1) := by
  intro st p h
  unfold changedDepsStep
  cases hm : mapGet graph p with
  | none => exact h
  | some pkg =>
    exact foldl_preserve (fun s : List String × List (String × String) × Bool => P s.1)
      (fun s a hs => depAddStep_preserve changed p P hadd s a hs) pkg.deps st h

theorem changedDepsPass_preserve (graph : List (String × Package)) (changed : List String)
    (P : List String → Prop)
    (hadd : ∀ tb d, P tb → d ∈ changed → d ∉ tb → P (tb ++ [d]))
    (tb : List String) (rs : List (String × String)) (h : P tb) :
    P ((changedDepsPass graph changed tb rs).1) :=
  foldl_preserve (fun s : List String × List (String × String) × Bool => P s.1)
    (fun s a hs => changedDepsStep_preserve graph changed P hadd s a hs) tb (tb, rs, false) h

theorem changedDepsLoop_preserve (graph : List (String × Package)) (changed : List String)
    (P : List String → Prop)
    (hadd : ∀ tb d, P tb → d ∈ changed → d ∉ tb → P (tb ++ [d])) :
    ∀ (fuel : Nat) (tb : List String) (rs : List (String × String)),
      P tb → P ((changedDepsLoop graph changed fuel tb rs).1) := by
  intro fuel
  induction fuel with
  | zero => exact fun tb rs h => h
  | succ n ih =>
    intro tb rs h
    simp only [changedDepsLoop]
    split
    · exact ih _ _ (changedDepsPass_preserve graph changed P hadd tb rs h)
    · exact changedDepsPass_preserve graph changed P hadd tb rs h

theorem depAddStep_mono (changed : List String) (pkgName : String)
    (st : List String × List (String × String) × Bool) (d : String) :
    ∀ x ∈ st.1, x ∈ (depAddStep changed pkgName st d).1 := by
  intro x hx
  unfold depAddStep
  split
  · exact List.mem_append.mpr (Or.inl hx)
  · exact hx

theorem changedDepsStep_mono (graph : List (String × Package)) (changed : List String)
    (st : List String × List (String × String) × Bool) (p : String) :
    ∀ x ∈ st.1, x ∈ (changedDepsStep graph changed st p).1 := by
  intro x hx
  unfold changedDepsStep
  cases hm : mapGet graph p with
  | none => exact hx
  | some pkg =>
    exact foldl_preserve (fun s : List String × List (String × String) × Bool => x ∈ s.1)
      (fun s a hs => depAddStep_mono changed p s a x hs) pkg.deps st hx

theorem changedDepsPass_mono (graph : List (String × Package)) (changed tb : List String)
    (rs : List (String × String)) :
    ∀ x ∈ tb, x ∈ (changedDepsPass graph changed tb rs).1 := fun x hx =>
  foldl_preserve (fun s : List String × List (String × String) × Bool => x ∈ s.1)
    (fun s a hs => changedDepsStep_mono graph changed s a x hs) tb (tb, rs, false) hx

theorem changedDepsLoop_mono (graph : List (String × Package)) (changed : List String) :
    ∀ (fuel : Nat) (tb : List String) (rs : List (String × String)) (x : String),
      x ∈ tb → x ∈ (changedDepsLoop graph changed fuel tb rs).1 := by
  intro fuel
  induction fuel with
  | zero => exact fun tb rs x hx => hx
  | succ n ih =>
    intro tb rs x hx
    simp only [changedDepsLoop]
    split
    · exact ih _ _ x (changedDepsPass_mono graph changed tb rs x hx)
    · exact changedDepsPass_mono graph changed tb rs x hx

theorem changedDepsLoop_fixed (graph : List (String × Package)) (changed univ : List String)
    (hu : ∀ d ∈ changed, d ∈ univ) :
    ∀ (fuel : Nat) (tb : List String) (rs : List (String × String)),
      tb.Nodup → (∀ x ∈ tb, x ∈ univ) → univ.length + 1 ≤ fuel + tb.length →
      (changedDepsPass graph changed (changedDepsLoop graph changed fuel tb rs).1
          (changedDepsLoop graph changed fuel tb rs).2).2.2 = false := by
  intro fuel
  induction fuel with
  | zero =>
    intro tb rs hnd hsub hlen
    exfalso
    have hle : tb.length ≤ univ.length :=
      (List.subperm_of_subset hnd (fun x hx => hsub x hx)).length_le
    omega
  | succ n ih =>
    intro tb rs hnd hsub hlen
    rcases changedDepsPass_cases graph changed tb rs with hfix | hgrow
    · have hch : (changedDepsPass graph changed tb rs).2.2 = false := by rw [hfix]
      simp only [changedDepsLoop]
      rw [if_neg (by rw [hfix]; simp)]
      rw [hfix]
      exact hch
    · obtain ⟨hlt, hch⟩ := hgrow
      simp only [changedDepsLoop]
      rw [if_pos hch]
      have hpres :
          ((changedDepsPass graph changed tb rs).1.Nodup ∧
           ∀ x ∈ (changedDepsPass graph changed tb rs).1, x ∈ univ) :=
        changedDepsPass_preserve graph changed
          (fun t : List String => t.Nodup ∧ ∀ x ∈ t, x ∈ univ)
          (fun t d ht hdch hdt =>
            ⟨nodup_append_singleton ht.1 hdt,
             fun x hx => by
               rcases List.mem_append.mp hx with hx1 | hx1
               · exact ht.2 x hx1
               · simp at hx1
                 exact hx1 ▸ hu d hdch⟩)
          tb rs ⟨hnd, hsub⟩
      exact ih _ _ hpres.1 hpres.2 (by omega)

/-! The acyclicity invariant of the upward cascade (`findDependents`). -/

theorem upInv_step {c0 : List String}
    {st : List String × List (String × String) × Bool} {entry : String × Package}
    (h : UpInv c0 st.1 st.2.1) :
    UpInv c0 (findDependentsStep st entry).1 (findDependentsStep st entry).2.1 := by
  unfold findDependentsStep
  split
  · exact h
  · rename_i hnot
    cases hf : entry.2.deps.find? (fun d => decide (d ∈ st.1)) with
    | none => exact h
    | some dep =>
      show UpInv c0 (st.1 ++ [entry.1]) (mapSet st.2.1 entry.1 dep)
      obtain ⟨hdep, _⟩ := find?_decide_mem hf
      have hkeys : ∀ e ∈ st.2.1, e.1 ≠ entry.1 := fun e he hk =>
        hnot (hk ▸ (h.2.1 e he).1)
      rw [mapSet_append hkeys]
      obtain ⟨ha, hb, hc⟩ := h
      refine ⟨?_, ?_, ?_⟩
      · exact fun x hx => List.mem_append.mpr (Or.inl (ha x hx))
      · intro e he
        rcases List.mem_append.mp he with he1 | he2
        · obtain ⟨h1, h2, h3, h4⟩ := hb e he1
          refine ⟨List.mem_append.mpr (Or.inl h1), List.mem_append.mpr (Or.inl h2), ?_, h4⟩
          rw [rank_append_of_mem h2, rank_append_of_mem h1]
          exact h3
        · simp only [List.mem_singleton] at he2
          subst he2
          refine ⟨List.mem_append.mpr (Or.inr (by simp)),
            List.mem_append.mpr (Or.inl hdep), ?_, fun hcon => hnot (ha _ hcon)⟩
          rw [rank_append_of_mem hdep, rank_append_self hnot]
          exact rank_lt_length hdep
      · intro x hx
        rcases List.mem_append.mp hx with hx1 | hx2
        · rcases hc x hx1 with hx3 | hd2
          · exact Or.inl hx3
          · obtain ⟨d, hd⟩ := hd2
            exact Or.inr ⟨d, List.mem_append.mpr (Or.inl hd)⟩
        · simp only [List.mem_singleton] at hx2
          subst hx2
          exact Or.inr ⟨dep, List.mem_append.mpr (Or.inr (by simp))⟩

theorem findDependentsPass_upInv (graph : List (String × Package)) (c0 : List String)
    (aff : List String) (rs : List (String × String)) (h : UpInv c0 aff rs) :
    UpInv c0 (findDependentsPass graph aff rs).1 (findDependentsPass graph aff rs).2.1 :=
  foldl_preserve
    (fun st : List String × List (String × String) × Bool => UpInv c0 st.1 st.2.1)
    (fun _ _ hst => upInv_step hst) graph (aff, rs, false) h

theorem findDependentsLoop_upInv (graph : List (String × Package)) (c0 : List String) :
    ∀ (fuel : Nat) (aff : List String) (rs : List (String × String)), UpInv c0 aff rs →
      UpInv c0 (findDependentsLoop graph fuel aff rs).1
        (findDependentsLoop graph fuel aff rs).2 := by
  intro fuel
  induction fuel with
  | zero => exact fun aff rs h => h
  | succ n ih =>
    intro aff rs h
    simp only [findDependentsLoop]
    split
    · exact ih _ _ (findDependentsPass_upInv graph c0 aff rs h)
    · exact findDependentsPass_upInv graph c0 aff rs h

theorem findDependents_upInv (graph : List (String × Package)) (changed : List String) :
    UpInv (setOfList changed) (findDependents graph changed).1
      (findDependents graph changed).2 :=
  findDependentsLoop_upInv graph (setOfList changed) (graph.length + 1) (setOfList changed) []
    ⟨fun _ hx => hx, fun e he => absurd he (List.not_mem_nil e), fun _ hx => Or.inl hx⟩

theorem buildDependencyChain_succ (n : Nat) (p : String) (rs : List (String × String)) :
    buildDependencyChain (n + 1) p rs =
      (match mapGet rs p with
       | some dep => dep :: buildDependencyChain n dep rs
       | none => []) := rfl

theorem chain_endpoint {c0 aff : List String} {rs : List (String × String)}
    (hinv : UpInv c0 aff rs) :
    ∀ (n : Nat) (p : String), p ∈ aff → rank aff p < n →
      (buildDependencyChain n p rs).getLastD p ∈ c0 ∧
      mapGet rs ((buildDependencyChain n p rs).getLastD p) = none := by
  intro n
  induction n with
  | zero => exact fun p hp hr => absurd hr (Nat.not_lt_zero _)
  | succ n ih =>
    intro p hp hr
    cases hm : mapGet rs p with
    | none =>
      have hchain : buildDependencyChain (n + 1) p rs = [] := by
        rw [buildDependencyChain_succ, hm]
      rw [hchain]
      refine ⟨?_, hm⟩
      rcases hinv.2.2 p hp with hc | hd
      · exact hc
      · obtain ⟨d, hd2⟩ := hd
        exact absurd rfl (mapGet_eq_none.mp hm (p, d) hd2)
    | some dep =>
      have hchain : buildDependencyChain (n + 1) p rs =
          dep :: buildDependencyChain n dep rs := by
        rw [buildDependencyChain_succ, hm]
      rw [hchain, List.getLastD_cons]
      have hmem := mapGet_mem hm
      obtain ⟨h1, h2, h3, h4⟩ := hinv.2.1 _ hmem
      have h5 : rank aff dep < rank aff p := h3
      exact ih dep h2 (by omega)

theorem chain_fuel_stable {rs : List (String × String)} :
    ∀ (n : Nat) (p : String),
      mapGet rs ((buildDependencyChain n p rs).getLastD p) = none →
      ∀ (k : Nat), buildDependencyChain (n + k) p rs = buildDependencyChain n p rs := by
  intro n
  induction n with
  | zero =>
    intro p h k
    have hp : mapGet rs p = none := h
    rw [Nat.zero_add]
    cases k with
    | zero => rfl
    | succ k =>
      rw [buildDependencyChain_succ, hp]
      rfl
  | succ n ih =>
    intro p h k
    cases hm : mapGet rs p with
    | none =>
      have hchain : buildDependencyChain (n + 1) p rs = [] := by
        rw [buildDependencyChain_succ, hm]
      rw [hchain]
      have harith : n + 1 + k = (n + k) + 1 := by omega
      rw [harith, buildDependencyChain_succ, hm]
    | some dep =>
      have hchain : buildDependencyChain (n + 1) p rs =
          dep :: buildDependencyChain n dep rs := by
        rw [buildDependencyChain_succ, hm]
      rw [hchain] at h ⊢
      rw [List.getLastD_cons] at h
      have harith : n + 1 + k = (n + k) + 1 := by omega
      rw [harith, buildDependencyChain_succ, hm]
      show dep :: buildDependencyChain (n + k) dep rs = dep :: buildDependencyChain n dep rs
      rw [ih dep h k]

/-! Behaviour of the version bump engine on parsed inputs. -/

theorem formatVersion_stable (M m p : Nat) :
    formatVersion ⟨M, m, p, none⟩ =
      toString M ++ "." ++ toString m ++ "." ++ toString p := rfl

theorem append_lit_step (t : String) (x y z : String) (h : x ++ y = z) :
    t ++ x ++ y = t ++ z := by
  rw [String.append_assoc, h]

theorem bump_stable_of_parse {s : String} {v : ParsedVersion}
    (h : parseVersion s = some v) (hpre : v.prerelease = none) :
    bumpVersion s .major = some (formatVersion ⟨v.major + 1, 0, 0, none⟩) ∧
    bumpVersion s .minor = some (formatVersion ⟨v.major, v.minor + 1, 0, none⟩) ∧
    bumpVersion s .patch = some (formatVersion ⟨v.major, v.minor, v.patch + 1, none⟩) := by
  have h0 : toString (0 : Nat) = "0" := rfl
  refine ⟨?_, ?_, ?_⟩
  · simp only [bumpVersion, h, hpre, formatVersion_stable]
    rw [h0, append_lit_step (toString (v.major + 1)) "." "0" ".0" rfl,
      append_lit_step (toString (v.major + 1)) ".0" "." ".0." rfl,
      append_lit_step (toString (v.major + 1)) ".0." "0" ".0.0" rfl]
  · simp only [bumpVersion, h, hpre, formatVersion_stable]
    rw [h0, append_lit_step (toString v.major ++ "." ++ toString (v.minor + 1))
      "." "0" ".0" rfl]
  · simp only [bumpVersion, h, hpre, formatVersion_stable]

theorem bump_pre_major_of_parse {s : String} {v : ParsedVersion} {pr : Prerelease}
    (h : parseVersion s = some v) (hpre : v.prerelease = some pr) :
    bumpVersion s .major = some (formatVersion ⟨v.major + 1, 0, 0, none⟩) := by
  simp only [bumpVersion, h, hpre]

theorem bump_pre_minor_of_parse {s : String} {v : ParsedVersion} {pr : Prerelease}
    (h : parseVersion s = some v) (hpre : v.prerelease = some pr) :
    bumpVersion s .minor = some (formatVersion ⟨v.major, v.minor + 1, 0, none⟩) := by
  simp only [bumpVersion, h, hpre]

theorem bump_graduation_of_parse {s : String} {v : ParsedVersion} {pr : Prerelease}
    (h : parseVersion s = some v) (hpre : v.prerelease = some pr) :
    bumpVersion s .patch = some (formatVersion ⟨v.major, v.minor, v.patch, none⟩) := by
  simp only [bumpVersion, h, hpre]

theorem bump_channel_from_stable {s : String} {v : ParsedVersion}
    (h : parseVersion s = some v) (hpre : v.prerelease = none) (t : PrereleaseType) :
    bumpVersion s (channelDirective t) =
      some (formatVersion ⟨v.major, v.minor + 1, 0, some ⟨t, 1⟩⟩) := by
  cases t <;> simp only [channelDirective, bumpVersion, h, bumpPre, hpre]

theorem bump_same_channel {s : String} {v : ParsedVersion} {pr : Prerelease}
    (h : parseVersion s = some v) (hpre : v.prerelease = some pr) :
    bumpVersion s (channelDirective pr.type) =
      some (formatVersion ⟨v.major, v.minor, v.patch, some ⟨pr.type, pr.num + 1⟩⟩) := by
  obtain ⟨t, n⟩ := pr
  cases t <;> simp only [channelDirective, bumpVersion, h, bumpPre, hpre] <;> simp

theorem bump_other_channel {s : String} {v : ParsedVersion} {pr : Prerelease}
    (t2 : PrereleaseType) (h : parseVersion s = some v) (hpre : v.prerelease = some pr)
    (hne : t2 ≠ pr.type) :
    bumpVersion s (channelDirective t2) =
      some (formatVersion ⟨v.major, v.minor, v.patch, some ⟨t2, 1⟩⟩) := by
  obtain ⟨t, n⟩ := pr
  cases t <;> cases t2 <;>
    first
    | exact absurd rfl hne
    | (simp only [channelDirective, bumpVersion, h, bumpPre, hpre]; simp)

/-! Claim theorems for the version bump engine. -/

/-- C4 counterexample: the claim says that for ANY valid version string and a
directive in major/minor/patch exactly one base component is incremented by
one (with lower components reset).  But bumping a prerelease version with
directive `patch` graduates it: `1.2.3-a1` becomes `1.2.3`, and no component
of the base version is incremented at all. -/
theorem bumpVersion_stable_claim_counterexample :
    bumpVersion "1.2.3-a1" .patch = some "1.2.3" ∧
    parseVersion "1.2.3-a1" = some ⟨1, 2, 3, some ⟨.alpha, 1⟩⟩ ∧
    parseVersion "1.2.3" = some ⟨1, 2, 3, none⟩ ∧
    ¬ IncrementsExactlyOne ⟨1, 2, 3, some ⟨.alpha, 1⟩⟩ ⟨1, 2, 3, none⟩ := by
  refine ⟨by decide, by decide, by decide, ?_⟩
  unfold IncrementsExactlyOne
  decide

/-- C4 (amended): for any valid version and directive in major/minor/patch,
exactly one of the base components increments by one and all components of
lower significance reset to 0 — EXCEPT that bumping a prerelease version with
directive `patch` graduates it, leaving the base numerically unchanged and
dropping the prerelease suffix (major/minor on a prerelease still increment
that component, reset lower ones and drop the suffix). -/
theorem bumpVersion_stable_directives :
    ∀ (s : String) (v : ParsedVersion), parseVersion s = some v →
      (v.prerelease = none →
        bumpVersion s .major = some (formatVersion ⟨v.major + 1, 0, 0, none⟩) ∧
        bumpVersion s .minor = some (formatVersion ⟨v.major, v.minor + 1, 0, none⟩) ∧
        bumpVersion s .patch = some (formatVersion ⟨v.major, v.minor, v.patch + 1, none⟩) ∧
        IncrementsExactlyOne v ⟨v.major + 1, 0, 0, none⟩ ∧
        IncrementsExactlyOne v ⟨v.major, v.minor + 1, 0, none⟩ ∧
        IncrementsExactlyOne v ⟨v.major, v.minor, v.patch + 1, none⟩) ∧
      (∀ pr, v.prerelease = some pr →
        bumpVersion s .major = some (formatVersion ⟨v.major + 1, 0, 0, none⟩) ∧
        bumpVersion s .minor = some (formatVersion ⟨v.major, v.minor + 1, 0, none⟩) ∧
        bumpVersion s .patch = some (formatVersion ⟨v.major, v.minor, v.patch, none⟩) ∧
        ¬ IncrementsExactlyOne v ⟨v.major, v.minor, v.patch, none⟩) := by
  intro s v h
  constructor
  · intro hpre
    obtain ⟨h1, h2, h3⟩ := bump_stable_of_parse h hpre
    exact ⟨h1, h2, h3, Or.inl ⟨rfl, rfl, rfl⟩, Or.inr (Or.inl ⟨rfl, rfl, rfl⟩),
      Or.inr (Or.inr ⟨rfl, rfl, rfl⟩)⟩
  · intro pr hpre
    refine ⟨bump_pre_major_of_parse h hpre, bump_pre_minor_of_parse h hpre,
      bump_graduation_of_parse h hpre, ?_⟩
    rintro (⟨e, _, _⟩ | ⟨_, e, _⟩ | ⟨_, _, e⟩) <;> exact absurd e (by simp)

/-- C4 witness: the amended theorem applied to the stable version 1.2.3. -/
theorem bumpVersion_stable_directives_witness :
    bumpVersion "1.2.3" .minor = some "1.3.0" := by
  have h := ((bumpVersion_stable_directives "1.2.3" ⟨1, 2, 3, none⟩ (by decide)).1 rfl).2.1
  exact h.trans (by decide)

/-- C5: prerelease transitions of `bumpVersion`: from a stable version a
channel directive yields `major.(minor+1).0-<tag>1`; from a prerelease of the
same channel the prerelease number increments by exactly one; from a
prerelease of a different channel the result restarts at `<tag>1` on the same
base version with no channel-ordering validation; and concretely
0.7.0 → 0.8.0-a1 → 0.8.0-a2 → 0.8.0-b1 → 0.8.0. -/
theorem bumpVersion_prerelease_transitions :
    (∀ (s : String) (v : ParsedVersion), parseVersion s = some v →
      (v.prerelease = none → ∀ (t : PrereleaseType),
        bumpVersion s (channelDirective t) =
          some (formatVersion ⟨v.major, v.minor + 1, 0, some ⟨t, 1⟩⟩)) ∧
      (∀ pr, v.prerelease = some pr →
        bumpVersion s (channelDirective pr.type) =
          some (formatVersion ⟨v.major, v.minor, v.patch, some ⟨pr.type, pr.num + 1⟩⟩)) ∧
      (∀ pr t2, v.prerelease = some pr → t2 ≠ pr.type →
        bumpVersion s (channelDirective t2) =
          some (formatVersion ⟨v.major, v.minor, v.patch, some ⟨t2, 1⟩⟩))) ∧
    bumpVersion "0.7.0" .alpha = some "0.8.0-a1" ∧
    bumpVersion "0.8.0-a1" .alpha = some "0.8.0-a2" ∧
    bumpVersion "0.8.0-a2" .beta = some "0.8.0-b1" ∧
    bumpVersion "0.8.0-b1" .patch = some "0.8.0" := by
  refine ⟨fun s v h => ⟨fun hpre t => bump_channel_from_stable h hpre t,
    fun pr hpre => bump_same_channel h hpre,
    fun pr t2 hpre hne => bump_other_channel t2 h hpre hne⟩,
    by decide, by decide, by decide, by decide⟩

/-- C5 witness: the transition theorem applied to the stable version 1.0.0
with the alpha channel. -/
theorem bumpVersion_prerelease_transitions_witness :
    bumpVersion "1.0.0" (channelDirective .alpha) = some "1.1.0-a1" := by
  have h := (bumpVersion_prerelease_transitions.1 "1.0.0" ⟨1, 0, 0, none⟩ (by decide)).1
    rfl .alpha
  exact h.trans (by decide)

/-- C6: graduation — for every prerelease version, `bumpVersion` with
directive `patch` returns the bare base version, numerically unchanged, with
the prerelease suffix dropped, regardless of the channel and number. -/
theorem bumpVersion_graduation :
    ∀ (s : String) (v : ParsedVersion) (pr : Prerelease),
      parseVersion s = some v → v.prerelease = some pr →
      bumpVersion s .patch = some (formatVersion ⟨v.major, v.minor, v.patch, none⟩) :=
  fun _ _ _ h hpre => bump_graduation_of_parse h hpre

/-- C6 witness: graduation applied to 1.2.3-a7 yields 1.2.3. -/
theorem bumpVersion_graduation_witness :
    bumpVersion "1.2.3-a7" .patch = some "1.2.3" := by
  have h := bumpVersion_graduation "1.2.3-a7" ⟨1, 2, 3, some ⟨.alpha, 7⟩⟩ ⟨.alpha, 7⟩
    (by decide) rfl
  exact h.trans (by decide)

/-! Characterization of the accepted version strings (claim C7). -/

theorem mem_takeWhile_digit {p : Char → Bool} :
    ∀ {l : List Char} {c : Char}, c ∈ l.takeWhile p → p c = true := by
  intro l
  induction l with
  | nil => intro c hc; cases hc
  | cons a l ih =>
    intro c hc
    by_cases ha : p a
    · rw [List.takeWhile_cons_of_pos ha] at hc
      cases List.mem_cons.mp hc with
      | inl he => exact he ▸ ha
      | inr hm => exact ih hm
    · rw [List.takeWhile_cons_of_neg ha] at hc
      cases hc

theorem takeWhile_digits_append {ds r : List Char}
    (hds : ∀ c ∈ ds, c.isDigit = true)
    (hr : ∀ c, r.head? = some c → c.isDigit = false) :
    (ds ++ r).takeWhile (fun c => c.isDigit) = ds ∧
    (ds ++ r).dropWhile (fun c => c.isDigit) = r := by
  induction ds with
  | nil =>
    cases r with
    | nil => exact ⟨rfl, rfl⟩
    | cons c r2 =>
      have hc : c.isDigit = false := hr c rfl
      constructor
      · simp only [List.nil_append]
        exact List.takeWhile_cons_of_neg (by simp [hc])
      · simp only [List.nil_append]
        exact List.dropWhile_cons_of_neg (by simp [hc])
  | cons d ds ih =>
    have hd : d.isDigit = true := hds d (List.mem_cons_self _ _)
    obtain ⟨ht, hdr⟩ := ih (fun c hc => hds c (List.mem_cons_of_mem _ hc))
    constructor
    · simp only [List.cons_append]
      rw [List.takeWhile_cons_of_pos (by simp [hd])]
      rw [ht]
    · simp only [List.cons_append]
      rw [List.dropWhile_cons_of_pos (by simp [hd])]
      exact hdr

theorem parseNatChars_append {ds r : List Char} (hne : ds ≠ [])
    (hds : ∀ c ∈ ds, c.isDigit = true)
    (hr : ∀ c, r.head? = some c → c.isDigit = false) :
    parseNatChars (ds ++ r) = some (digitsToNat ds, r) := by
  obtain ⟨ht, hd⟩ := takeWhile_digits_append hds hr
  unfold parseNatChars
  simp only [ht, hd]
  rw [if_neg (by simpa using hne)]
  rfl

theorem parseNatChars_sound {cs : List Char} {n : Nat} {r : List Char}
    (h : parseNatChars cs = some (n, r)) :
    ∃ ds, cs = ds ++ r ∧ ds ≠ [] ∧ (∀ c ∈ ds, c.isDigit = true) ∧ n = digitsToNat ds := by
  unfold parseNatChars at h
  by_cases hemp : (cs.takeWhile (fun c => c.isDigit)).isEmpty
  · rw [if_pos hemp] at h
    cases h
  · rw [if_neg hemp] at h
    simp only [Option.some.injEq, Prod.mk.injEq] at h
    refine ⟨cs.takeWhile (fun c => c.isDigit), ?_, ?_, ?_, ?_⟩
    · rw [h.2.symm]
      exact (List.takeWhile_append_dropWhile (fun c => c.isDigit) cs).symm
    · simpa using hemp
    · exact fun c hc => mem_takeWhile_digit hc
    · exact h.1.symm

theorem parsePreNum_complete (t : PrereleaseType) {ds : List Char} (hne : ds ≠ [])
    (hds : ∀ c ∈ ds, c.isDigit = true) :
    parsePreNum t ds = some (some ⟨t, digitsToNat ds⟩) := by
  have h : parseNatChars (ds ++ ([] : List Char)) = some (digitsToNat ds, []) :=
    parseNatChars_append hne hds (fun c hc => by cases hc)
  rw [List.append_nil] at h
  unfold parsePreNum
  rw [h]

theorem parsePreNum_sound {t : PrereleaseType} {cs : List Char} {pre : Option Prerelease}
    (h : parsePreNum t cs = some pre) :
    ∃ ds, cs = ds ∧ ds ≠ [] ∧ (∀ c ∈ ds, c.isDigit = true) ∧
      pre = some ⟨t, digitsToNat ds⟩ := by
  unfold parsePreNum at h
  cases hp : parseNatChars cs with
  | none => rw [hp] at h; cases h
  | some nr =>
    obtain ⟨n, r⟩ := nr
    rw [hp] at h
    cases r with
    | nil =>
      simp only [Option.some.injEq] at h
      obtain ⟨ds, hcs, hne, hds, hn⟩ := parseNatChars_sound hp
      rw [List.append_nil] at hcs
      exact ⟨ds, hcs, hne, hds, by rw [h.symm, hn]⟩
    | cons c r2 => cases h

theorem parseSuffixChars_nil : parseSuffixChars [] = some none := rfl

theorem parseSuffixChars_tag (t : PrereleaseType) {ds : List Char} (hne : ds ≠ [])
    (hds : ∀ c ∈ ds, c.isDigit = true) :
    parseSuffixChars ('-' :: (tagChars t ++ ds)) = some (some ⟨t, digitsToNat ds⟩) := by
  cases t <;>
    simp only [tagChars, List.cons_append, List.nil_append, parseSuffixChars] <;>
    exact parsePreNum_complete _ hne hds

theorem parseSuffixChars_sound {suf : List Char} {pre : Option Prerelease}
    (h : parseSuffixChars suf = some pre) :
    (suf = [] ∧ pre = none) ∨
    (∃ t ds, ds ≠ [] ∧ (∀ c ∈ ds, c.isDigit = true) ∧
      suf = '-' :: (tagChars t ++ ds) ∧ pre = some ⟨t, digitsToNat ds⟩) := by
  unfold parseSuffixChars at h
  split at h
  · left
    cases h
    exact ⟨rfl, rfl⟩
  · split at h
    · obtain ⟨ds, hcs, hne, hds, hpre⟩ := parsePreNum_sound h
      right
      exact ⟨.alpha, ds, hne, hds, by rw [hcs]; rfl, hpre⟩
    · obtain ⟨ds, hcs, hne, hds, hpre⟩ := parsePreNum_sound h
      right
      exact ⟨.beta, ds, hne, hds, by rw [hcs]; rfl, hpre⟩
    · obtain ⟨ds, hcs, hne, hds, hpre⟩ := parsePreNum_sound h
      right
      exact ⟨.rc, ds, hne, hds, by rw [hcs]; rfl, hpre⟩
    · cases h
  · cases h

theorem parseVersionChars_complete {d1 d2 d3 suf : List Char}
    (h1 : d1 ≠ []) (h1d : ∀ c ∈ d1, c.isDigit = true)
    (h2 : d2 ≠ []) (h2d : ∀ c ∈ d2, c.isDigit = true)
    (h3 : d3 ≠ []) (h3d : ∀ c ∈ d3, c.isDigit = true)
    {pre : Option Prerelease}
    (hsuf : parseSuffixChars suf = some pre)
    (hhead : ∀ c, suf.head? = some c → c.isDigit = false) :
    parseVersionChars (d1 ++ '.' :: (d2 ++ '.' :: (d3 ++ suf))) =
      some ⟨digitsToNat d1, digitsToNat d2, digitsToNat d3, pre⟩ := by
  have hdot : ('.' : Char).isDigit = false := by decide
  have p1 : parseNatChars (d1 ++ '.' :: (d2 ++ '.' :: (d3 ++ suf))) =
      some (digitsToNat d1, '.' :: (d2 ++ '.' :: (d3 ++ suf))) :=
    parseNatChars_append h1 h1d
      (fun c hc => by cases hc; exact hdot)
  have p2 : parseNatChars (d2 ++ '.' :: (d3 ++ suf)) =
      some (digitsToNat d2, '.' :: (d3 ++ suf)) :=
    parseNatChars_append h2 h2d
      (fun c hc => by cases hc; exact hdot)
  have p3 : parseNatChars (d3 ++ suf) = some (digitsToNat d3, suf) :=
    parseNatChars_append h3 h3d hhead
  simp only [parseVersionChars, p1, p2, p3, hsuf]

theorem parseVersionChars_sound {cs : List Char} {v : ParsedVersion}
    (h : parseVersionChars cs = some v) :
    ∃ d1 d2 d3 suf, cs = d1 ++ '.' :: (d2 ++ '.' :: (d3 ++ suf)) ∧
      (d1 ≠ [] ∧ ∀ c ∈ d1, c.isDigit = true) ∧
      (d2 ≠ [] ∧ ∀ c ∈ d2, c.isDigit = true) ∧
      (d3 ≠ [] ∧ ∀ c ∈ d3, c.isDigit = true) ∧
      v.major = digitsToNat d1 ∧ v.minor = digitsToNat d2 ∧ v.patch = digitsToNat d3 ∧
      ((suf = [] ∧ v.prerelease = none) ∨
       (∃ t ds, ds ≠ [] ∧ (∀ c ∈ ds, c.isDigit = true) ∧
         suf = '-' :: (tagChars t ++ ds) ∧ v.prerelease = some ⟨t, digitsToNat ds⟩)) := by
  unfold parseVersionChars at h
  split at h
  · cases h
  · rename_i maj cs1 hp1
    split at h
    · rename_i cs2 heq1
      split at h
      · cases h
      · rename_i mnr cs3 hp2
        split at h
        · rename_i cs4 heq2
          split at h
          · cases h
          · rename_i pat cs5 hp3
            split at h
            · cases h
            · rename_i pre hp4
              cases h
              obtain ⟨ds1, hcs1, hne1, hds1, hn1⟩ := parseNatChars_sound hp1
              obtain ⟨ds2, hcs2, hne2, hds2, hn2⟩ := parseNatChars_sound hp2
              obtain ⟨ds3, hcs3, hne3, hds3, hn3⟩ := parseNatChars_sound hp3
              refine ⟨ds1, ds2, ds3, cs5, ?_, ⟨hne1, hds1⟩, ⟨hne2, hds2⟩, ⟨hne3, hds3⟩,
                hn1, hn2, hn3, ?_⟩
              · rw [hcs1, hcs2, hcs3]
              · rcases parseSuffixChars_sound hp4 with ⟨hnil, hnone⟩ | hpre
                · exact Or.inl ⟨hnil, by rw [hnone]⟩
                · obtain ⟨t, ds, hne, hds, hseq, hpeq⟩ := hpre
                  exact Or.inr ⟨t, ds, hne, hds, hseq, by rw [hpeq]⟩
        · cases h
    · cases h

theorem versionShape_parse {ok : Nat → Prop} {s : String} (h : VersionShape ok s) :
    ∃ v, parseVersion s = some v ∧
      (v.prerelease = none ∨ ∃ pr, v.prerelease = some pr ∧ ok pr.num) := by
  obtain ⟨d1, d2, d3, suf, hs, hd1, hd2, hd3, hsuf⟩ := h
  cases hsuf with
  | inl hnil =>
    subst hnil
    refine ⟨⟨digitsToNat d1, digitsToNat d2, digitsToNat d3, none⟩, ?_, Or.inl rfl⟩
    unfold parseVersion
    rw [hs]
    exact parseVersionChars_complete hd1.1 hd1.2 hd2.1 hd2.2 hd3.1 hd3.2
      parseSuffixChars_nil (fun c hc => by cases hc)
  | inr hex =>
    obtain ⟨tag, ds, hsufeq, htag, hdsne, hok⟩ := hex
    have htc : ∃ t, tagChars t = tag := by
      rcases htag with h | h | h
      · exact ⟨.alpha, by rw [h]; rfl⟩
      · exact ⟨.beta, by rw [h]; rfl⟩
      · exact ⟨.rc, by rw [h]; rfl⟩
    obtain ⟨t, ht⟩ := htc
    refine ⟨⟨digitsToNat d1, digitsToNat d2, digitsToNat d3, some ⟨t, digitsToNat ds⟩⟩, ?_,
      Or.inr ⟨⟨t, digitsToNat ds⟩, rfl, hok⟩⟩
    unfold parseVersion
    rw [hs, hsufeq, ht.symm]
    exact parseVersionChars_complete hd1.1 hd1.2 hd2.1 hd2.2 hd3.1 hd3.2
      (parseSuffixChars_tag t hdsne.1 hdsne.2)
      (fun c hc => by cases hc; decide)

theorem parseVersion_shape {s : String} {v : ParsedVersion} (h : parseVersion s = some v) :
    VersionShape (fun _ => True) s := by
  obtain ⟨d1, d2, d3, suf, hcs, hd1, hd2, hd3, _, _, _, hsuf⟩ := parseVersionChars_sound h
  refine ⟨d1, d2, d3, suf, hcs, hd1, hd2, hd3, ?_⟩
  rcases hsuf with ⟨hnil, _⟩ | ⟨t, ds, hne, hds, hseq, _⟩
  · exact Or.inl hnil
  · refine Or.inr ⟨tagChars t, ds, hseq, ?_, ⟨hne, hds⟩, trivial⟩
    cases t
    · exact Or.inl rfl
    · exact Or.inr (Or.inl rfl)
    · exact Or.inr (Or.inr rfl)

/-- C7 counterexample: the claim requires the prerelease number N to be
strictly positive and every other string to be a hard parse failure; but the
code's regex accepts `1.2.3-a0` (prerelease number 0), a string outside the
claimed positive-N shape. -/
theorem parseVersion_positive_counterexample :
    parseVersion "1.2.3-a0" = some ⟨1, 2, 3, some ⟨.alpha, 0⟩⟩ ∧
    ¬ VersionShape (fun n => 0 < n) "1.2.3-a0" := by
  refine ⟨by decide, fun hsh => ?_⟩
  obtain ⟨v, hv, hd⟩ := versionShape_parse hsh
  have hv2 : v = ⟨1, 2, 3, some ⟨.alpha, 0⟩⟩ :=
    Option.some.inj (hv.symm.trans (by decide))
  subst hv2
  rcases hd with h | hpr
  · exact absurd h (by decide)
  · obtain ⟨pr, hpr, hok⟩ := hpr
    have hpr2 : pr = ⟨.alpha, 0⟩ := (Option.some.inj hpr).symm
    subst hpr2
    exact absurd hok (by decide)

/-- C7 (amended): `parseVersion` accepts exactly the strings of shape
MAJOR.MINOR.PATCH or MAJOR.MINOR.PATCH-{a|b|rc}{N} where MAJOR, MINOR, PATCH
and N are decimal digit runs — N may be any natural number, including 0 —
and raises a hard parse failure (returns `none`) on every other input. -/
theorem parseVersion_accepts_exactly_shape :
    ∀ s : String, (∃ v, parseVersion s = some v) ↔ VersionShape (fun _ => True) s := by
  intro s
  constructor
  · rintro ⟨v, hv⟩
    exact parseVersion_shape hv
  · intro h
    obtain ⟨v, hv, _⟩ := versionShape_parse h
    exact ⟨v, hv⟩

/-- C7 witness: the characterization applied to the accepted string 1.2.3. -/
theorem parseVersion_accepts_exactly_shape_witness :
    VersionShape (fun _ => True) "1.2.3" :=
  (parseVersion_accepts_exactly_shape "1.2.3").mp ⟨⟨1, 2, 3, none⟩, by decide⟩

/-! Claim theorems for the cascade resolver. -/

/-- C1: evaluation at the failing input.  In the downward (explicit) mode the
dependency-pulling loop checks a dependency only against the change set, not
against the public package list, so a changed PRIVATE dependency of a
specified package enters `toBump`: here the private package pkg-internal,
changed and depended on by the specified public package pkg-app, is returned
in `toBump` — while the upward mode correctly drops it. -/
theorem getPackagesWithChangedDeps_private_leak :
    (getPackagesWithChangedDeps
        [⟨"pkg-app", "1.0.0", "packages/app", false, ["pkg-internal"]⟩,
         ⟨"pkg-internal", "1.0.0", "packages/internal", true, []⟩]
        ["pkg-app"] ["pkg-internal"]).1 = ["pkg-app", "pkg-internal"] ∧
    "pkg-internal" ∈ (getPackagesWithChangedDeps
        [⟨"pkg-app", "1.0.0", "packages/app", false, ["pkg-internal"]⟩,
         ⟨"pkg-internal", "1.0.0", "packages/internal", true, []⟩]
        ["pkg-app"] ["pkg-internal"]).1 ∧
    (⟨"pkg-internal", "1.0.0", "packages/internal", true, []⟩ : Package).isPrivate = true ∧
    (getPackagesToBump
        [⟨"pkg-app", "1.0.0", "packages/app", false, ["pkg-internal"]⟩,
         ⟨"pkg-internal", "1.0.0", "packages/internal", true, []⟩]
        ["pkg-internal"]).1 = [] := by
  refine ⟨by decide, by decide, rfl, by decide⟩

/-- C2: upward mode on the chain pkg-a ← pkg-b ← pkg-c with only pkg-a
changed: all three are bumped; pkg-a's reason is "changed" and pkg-c's reason
is the dependency chain [pkg-b, pkg-a] ending at the changed root pkg-a. -/
theorem getPackagesToBump_chain :
    getPackagesToBump
        [⟨"pkg-a", "1.0.0", "packages/pkg-a", false, []⟩,
         ⟨"pkg-b", "1.0.0", "packages/pkg-b", false, ["pkg-a"]⟩,
         ⟨"pkg-c", "1.0.0", "packages/pkg-c", false, ["pkg-b"]⟩]
        ["pkg-a"] =
      (["pkg-a", "pkg-b", "pkg-c"],
       [("pkg-a", "changed"), ("pkg-b", "depends on pkg-a"),
        ("pkg-c", "depends on pkg-b -> pkg-a")]) ∧
    (findDependents
        (buildDependencyGraph
          [⟨"pkg-a", "1.0.0", "packages/pkg-a", false, []⟩,
           ⟨"pkg-b", "1.0.0", "packages/pkg-b", false, ["pkg-a"]⟩,
           ⟨"pkg-c", "1.0.0", "packages/pkg-c", false, ["pkg-b"]⟩])
        ["pkg-a"]).2 = [("pkg-b", "pkg-a"), ("pkg-c", "pkg-b")] ∧
    buildDependencyChain 3 "pkg-c" [("pkg-b", "pkg-a"), ("pkg-c", "pkg-b")] =
      ["pkg-b", "pkg-a"] := by
  refine ⟨by decide, by decide, by decide⟩

/-- C10: for every dependency graph and change set, the dependency-reasons
map produced by `findDependents` is acyclic: following it from any affected
package reaches, in at most `allAffected.length` steps, a package of the
original changed set with no further reason entry (so the source's unbounded
`buildDependencyChain` loop terminates: one more unit of fuel changes
nothing), even when the package graph itself has cycles. -/
theorem findDependents_chain_reaches_changed :
    ∀ (graph : List (String × Package)) (changedPackages : List String) (p : String),
      p ∈ (findDependents graph changedPackages).1 →
      (buildDependencyChain (findDependents graph changedPackages).1.length p
          (findDependents graph changedPackages).2).getLastD p ∈ changedPackages ∧
      mapGet (findDependents graph changedPackages).2
        ((buildDependencyChain (findDependents graph changedPackages).1.length p
            (findDependents graph changedPackages).2).getLastD p) = none ∧
      buildDependencyChain ((findDependents graph changedPackages).1.length + 1) p
          (findDependents graph changedPackages).2 =
        buildDependencyChain (findDependents graph changedPackages).1.length p
          (findDependents graph changedPackages).2 := by
  intro graph changed p hp
  have hinv := findDependents_upInv graph changed
  obtain ⟨h1, h2⟩ := chain_endpoint hinv (findDependents graph changed).1.length p hp
    (rank_lt_length hp)
  exact ⟨mem_setOfList.mp h1, h2, chain_fuel_stable _ p h2 1⟩

/-- C10 witness: the chain theorem applied to a two-package graph where
pkg-b depends on the changed pkg-a. -/
theorem findDependents_chain_reaches_changed_witness :
    "pkg-b" ∈ (findDependents
        [("pkg-a", ⟨"pkg-a", "1.0.0", "pa", false, []⟩),
         ("pkg-b", ⟨"pkg-b", "1.0.0", "pb", false, ["pkg-a"]⟩)] ["pkg-a"]).1 ∧
    ((buildDependencyChain (findDependents
          [("pkg-a", ⟨"pkg-a", "1.0.0", "pa", false, []⟩),
           ("pkg-b", ⟨"pkg-b", "1.0.0", "pb", false, ["pkg-a"]⟩)] ["pkg-a"]).1.length
          "pkg-b"
          (findDependents
            [("pkg-a", ⟨"pkg-a", "1.0.0", "pa", false, []⟩),
             ("pkg-b", ⟨"pkg-b", "1.0.0", "pb", false, ["pkg-a"]⟩)] ["pkg-a"]).2).getLastD
        "pkg-b" ∈ ["pkg-a"] ∧
      mapGet (findDependents
          [("pkg-a", ⟨"pkg-a", "1.0.0", "pa", false, []⟩),
           ("pkg-b", ⟨"pkg-b", "1.0.0", "pb", false, ["pkg-a"]⟩)] ["pkg-a"]).2
        ((buildDependencyChain (findDependents
            [("pkg-a", ⟨"pkg-a", "1.0.0", "pa", false, []⟩),
             ("pkg-b", ⟨"pkg-b", "1.0.0", "pb", false, ["pkg-a"]⟩)] ["pkg-a"]).1.length
            "pkg-b"
            (findDependents
              [("pkg-a", ⟨"pkg-a", "1.0.0", "pa", false, []⟩),
               ("pkg-b", ⟨"pkg-b", "1.0.0", "pb", false, ["pkg-a"]⟩)] ["pkg-a"]).2).getLastD
          "pkg-b") = none ∧
      buildDependencyChain ((findDependents
          [("pkg-a", ⟨"pkg-a", "1.0.0", "pa", false, []⟩),
           ("pkg-b", ⟨"pkg-b", "1.0.0", "pb", false, ["pkg-a"]⟩)] ["pkg-a"]).1.length + 1)
          "pkg-b"
          (findDependents
            [("pkg-a", ⟨"pkg-a", "1.0.0", "pa", false, []⟩),
             ("pkg-b", ⟨"pkg-b", "1.0.0", "pb", false, ["pkg-a"]⟩)] ["pkg-a"]).2 =
        buildDependencyChain (findDependents
            [("pkg-a", ⟨"pkg-a", "1.0.0", "pa", false, []⟩),
             ("pkg-b", ⟨"pkg-b", "1.0.0", "pb", false, ["pkg-a"]⟩)] ["pkg-a"]).1.length
          "pkg-b"
          (findDependents
            [("pkg-a", ⟨"pkg-a", "1.0.0", "pa", false, []⟩),
             ("pkg-b", ⟨"pkg-b", "1.0.0", "pb", false, ["pkg-a"]⟩)] ["pkg-a"]).2) :=
  ⟨by decide, findDependents_chain_reaches_changed _ _ _ (by decide)⟩

theorem changedDepsLoop_spec (graph : List (String × Package)) (changed sp : List String)
    (rs0 : List (String × String)) (hnd : sp.Nodup) :
    (∀ x ∈ sp,
      x ∈ (changedDepsLoop graph changed (sp.length + changed.length + 1) sp rs0).1) ∧
    (∀ n ∈ (changedDepsLoop graph changed (sp.length + changed.length + 1) sp rs0).1,
      n ∈ sp ∨ n ∈ changed) ∧
    (∀ p ∈ (changedDepsLoop graph changed (sp.length + changed.length + 1) sp rs0).1,
      ∀ pkg, mapGet graph p = some pkg → ∀ d ∈ pkg.deps, d ∈ changed →
        d ∈ (changedDepsLoop graph changed (sp.length + changed.length + 1) sp rs0).1) := by
  refine ⟨?_, ?_, ?_⟩
  · exact fun x hx => changedDepsLoop_mono graph changed _ sp rs0 x hx
  · exact changedDepsLoop_preserve graph changed
      (fun tb => ∀ n ∈ tb, n ∈ sp ∨ n ∈ changed)
      (fun tb d ht hdch hdt n hn => by
        rcases List.mem_append.mp hn with h1 | h1
        · exact ht n h1
        · simp only [List.mem_singleton] at h1
          exact h1 ▸ Or.inr hdch)
      _ sp rs0 (fun n hn => Or.inl hn)
  · intro p hp pkg hpkg d hd hch
    have hfix := changedDepsLoop_fixed graph changed (sp ++ changed)
      (fun d2 hd2 => List.mem_append.mpr (Or.inr hd2))
      (sp.length + changed.length + 1) sp rs0 hnd
      (fun x hx => List.mem_append.mpr (Or.inl hx))
      (by rw [List.length_append]; omega)
    exact changedDepsPass_closure graph changed _ _ hfix p hp pkg hpkg d hd hch

/-- C3 counterexample: the claim states that the specified packages are
always a subset of `toBump` and that a dependency D of a selected package is
in `toBump` exactly when D is in the change set.  At this workspace with
specified = [pkg-p, pkg-d, pkg-x] (pkg-x private) and an empty change set,
the specified pkg-x is NOT in `toBump`, and pkg-d — a dependency of the
selected pkg-p — IS in `toBump` although it has no changes (it was itself
specified). -/
theorem getPackagesWithChangedDeps_claim_counterexample :
    "pkg-x" ∈ (["pkg-p", "pkg-d", "pkg-x"] : List String) ∧
    "pkg-x" ∉ (getPackagesWithChangedDeps
        [⟨"pkg-p", "1.0.0", "packages/p", false, ["pkg-d"]⟩,
         ⟨"pkg-d", "1.0.0", "packages/d", false, []⟩,
         ⟨"pkg-x", "1.0.0", "packages/x", true, []⟩]
        ["pkg-p", "pkg-d", "pkg-x"] []).1 ∧
    "pkg-p" ∈ (getPackagesWithChangedDeps
        [⟨"pkg-p", "1.0.0", "packages/p", false, ["pkg-d"]⟩,
         ⟨"pkg-d", "1.0.0", "packages/d", false, []⟩,
         ⟨"pkg-x", "1.0.0", "packages/x", true, []⟩]
        ["pkg-p", "pkg-d", "pkg-x"] []).1 ∧
    mapGet (buildDependencyGraph (getPublicPackages
        [⟨"pkg-p", "1.0.0", "packages/p", false, ["pkg-d"]⟩,
         ⟨"pkg-d", "1.0.0", "packages/d", false, []⟩,
         ⟨"pkg-x", "1.0.0", "packages/x", true, []⟩]).1) "pkg-p" =
      some ⟨"pkg-p", "1.0.0", "packages/p", false, ["pkg-d"]⟩ ∧
    "pkg-d" ∈ (getPackagesWithChangedDeps
        [⟨"pkg-p", "1.0.0", "packages/p", false, ["pkg-d"]⟩,
         ⟨"pkg-d", "1.0.0", "packages/d", false, []⟩,
         ⟨"pkg-x", "1.0.0", "packages/x", true, []⟩]
        ["pkg-p", "pkg-d", "pkg-x"] []).1 ∧
    "pkg-d" ∉ ([] : List String) := by
  refine ⟨by decide, by decide, by decide, by decide, by decide, by decide⟩

/-- C3 (amended): in downward (explicit) mode, the specified PUBLIC packages
are always a subset of `toBump`; every member of `toBump` is a specified
public package or a member of the change set (so a dependency with no
detected changes is never pulled in); and a dependency D of a public package
P in `toBump` enters `toBump` whenever D is in the change set. -/
theorem getPackagesWithChangedDeps_amended :
    ∀ (packages : List Package) (specified changed : List String),
      (∀ n, n ∈ specified → n ∈ (getPublicPackages packages).2 →
        n ∈ (getPackagesWithChangedDeps packages specified changed).1) ∧
      (∀ n, n ∈ (getPackagesWithChangedDeps packages specified changed).1 →
        (n ∈ specified ∧ n ∈ (getPublicPackages packages).2) ∨ n ∈ changed) ∧
      (∀ p, p ∈ (getPackagesWithChangedDeps packages specified changed).1 →
        ∀ pkg, mapGet (buildDependencyGraph (getPublicPackages packages).1) p = some pkg →
          ∀ d, d ∈ pkg.deps → d ∈ changed →
            d ∈ (getPackagesWithChangedDeps packages specified changed).1) := by
  intro packages specified changed
  have hmem : ∀ n, n ∈ setOfList (specified.filter
      (fun m => decide (m ∈ (getPublicPackages packages).2))) ↔
      (n ∈ specified ∧ n ∈ (getPublicPackages packages).2) := by
    intro n
    rw [mem_setOfList, List.mem_filter]
    simp
  have key := changedDepsLoop_spec
    (buildDependencyGraph (getPublicPackages packages).1) changed
    (setOfList (specified.filter (fun m => decide (m ∈ (getPublicPackages packages).2))))
    ((setOfList (specified.filter
        (fun m => decide (m ∈ (getPublicPackages packages).2)))).foldl
      (fun m n => mapSet m n "specified") [])
    (nodup_setOfList _)
  refine ⟨?_, ?_, ?_⟩
  · intro n hns hnp
    exact key.1 n ((hmem n).mpr ⟨hns, hnp⟩)
  · intro n hn
    rcases key.2.1 n hn with h1 | h1
    · exact Or.inl ((hmem n).mp h1)
    · exact Or.inr h1
  · intro p hp pkg hpkg d hd hch
    exact key.2.2 p hp pkg hpkg d hd hch

/-- C3 witness: at a workspace where the specified public pkg-p depends on
the changed pkg-d, the amended theorem yields that the changed dependency
pkg-d is pulled into `toBump`. -/
theorem getPackagesWithChangedDeps_amended_witness :
    "pkg-d" ∈ (getPackagesWithChangedDeps
        [⟨"pkg-p", "1.0.0", "packages/p", false, ["pkg-d"]⟩,
         ⟨"pkg-d", "1.0.0", "packages/d", false, []⟩]
        ["pkg-p"] ["pkg-d"]).1 :=
  (getPackagesWithChangedDeps_amended
      [⟨"pkg-p", "1.0.0", "packages/p", false, ["pkg-d"]⟩,
       ⟨"pkg-d", "1.0.0", "packages/d", false, []⟩]
      ["pkg-p"] ["pkg-d"]).2.2 "pkg-p" (by decide)
    ⟨"pkg-p", "1.0.0", "packages/p", false, ["pkg-d"]⟩ (by decide)
    "pkg-d" (by decide) (by decide)

/-- C8: explicit-mode entry validation — every requested package name is
checked against the workspace names before any cascade work; when some
requested name does not exist in the workspace, the run fails hard with the
`Unknown package(s)` error (and no cascade is computed); when all names
exist, the cascade is computed. -/
theorem computeExplicitModeCascade_validation :
    ∀ (packages : List Package) (requestedPackages changed : List String),
      ((∃ r ∈ requestedPackages, ∀ p ∈ packages, p.name ≠ r) →
        computeExplicitModeCascade packages requestedPackages changed =
          Except.error ("Unknown package(s): " ++ joinSep ", "
            (requestedPackages.filter
              (fun r => !((packages.map (fun q => q.name)).contains r))))) ∧
      ((∀ r ∈ requestedPackages, ∃ p ∈ packages, p.name = r) →
        computeExplicitModeCascade packages requestedPackages changed =
          Except.ok (getPackagesWithChangedDeps packages (setOfList requestedPackages)
            changed)) := by
  intro packages requested changed
  constructor
  · rintro ⟨r, hr, hno⟩
    unfold computeExplicitModeCascade
    rw [if_neg]
    intro hemp
    rw [List.isEmpty_iff] at hemp
    have hrin : r ∈ requested.filter
        (fun p => !((packages.map (fun q => q.name)).contains p)) := by
      rw [List.mem_filter]
      refine ⟨hr, ?_⟩
      have hnotmem : r ∉ packages.map (fun q => q.name) := by
        intro hcon
        obtain ⟨p, hpmem, hpname⟩ := List.mem_map.mp hcon
        exact hno p hpmem hpname
      simp [List.elem_iff, hnotmem, List.contains]
    rw [hemp] at hrin
    cases hrin
  · intro hall
    unfold computeExplicitModeCascade
    rw [if_pos]
    rw [List.isEmpty_iff, List.filter_eq_nil_iff]
    intro r hr
    obtain ⟨p, hpmem, hpname⟩ := hall r hr
    have hmem : r ∈ packages.map (fun q => q.name) :=
      List.mem_map.mpr ⟨p, hpmem, hpname⟩
    simp [List.elem_iff, hmem, List.contains]

/-- C8 witness: requesting the unknown name pkg-missing in a one-package
workspace fails with the `Unknown package(s)` error. -/
theorem computeExplicitModeCascade_validation_witness :
    computeExplicitModeCascade [⟨"pkg-a", "1.0.0", "packages/a", false, []⟩]
      ["pkg-missing"] [] = Except.error "Unknown package(s): pkg-missing" := by
  have h := (computeExplicitModeCascade_validation
      [⟨"pkg-a", "1.0.0", "packages/a", false, []⟩] ["pkg-missing"] []).1
    ⟨"pkg-missing", by decide, by decide⟩
  exact h.trans (congrArg Except.error (by decide))

/-! Claim theorems for the release planner (`bumpPackages`). -/

theorem bumpPackagesAux_dry_no_writes (toBump : List String)
    (reasons : List (String × String)) (ty : BumpType) :
    ∀ packages : List Package, (bumpPackagesAux toBump reasons ty true packages).2 = [] := by
  intro packages
  induction packages with
  | nil => rfl
  | cons pkg rest ih =>
    unfold bumpPackagesAux
    split
    · cases hb : bumpVersion pkg.version ty with
      | none => rfl
      | some newV => simpa using ih
    · exact ih

theorem bumpPackagesAux_dryRun_same_results (toBump : List String)
    (reasons : List (String × String)) (ty : BumpType) :
    ∀ (packages : List Package) (d1 d2 : Bool),
      (bumpPackagesAux toBump reasons ty d1 packages).1 =
        (bumpPackagesAux toBump reasons ty d2 packages).1 := by
  intro packages
  induction packages with
  | nil => intro d1 d2; rfl
  | cons pkg rest ih =>
    intro d1 d2
    unfold bumpPackagesAux
    split
    · cases hb : bumpVersion pkg.version ty with
      | none => rfl
      | some newV => simp only []; rw [ih d1 d2]
    · exact ih d1 d2

theorem bumpPackagesAux_results_spec (toBump : List String)
    (reasons : List (String × String)) (ty : BumpType) (dryRun : Bool) :
    ∀ (packages : List Package) (results : List BumpResult),
      (bumpPackagesAux toBump reasons ty dryRun packages).1 = some results →
      results.map (fun r => r.package) =
        (packages.filter (fun p => decide (p.name ∈ toBump))).map (fun p => p.name) ∧
      (∀ r ∈ results, mapGet reasons r.package = none → r.reason = "changed") := by
  intro packages
  induction packages with
  | nil =>
    intro results h
    cases h
    exact ⟨rfl, fun r hr => absurd hr (List.not_mem_nil r)⟩
  | cons pkg rest ih =>
    intro results h
    unfold bumpPackagesAux at h
    by_cases hmem : pkg.name ∈ toBump
    · rw [if_pos hmem] at h
      cases hb : bumpVersion pkg.version ty with
      | none => rw [hb] at h; cases h
      | some newV =>
        rw [hb] at h
        simp only at h
        obtain ⟨restRes, htail, hres⟩ := Option.map_eq_some'.mp h
        obtain ⟨hn1, hn2⟩ := ih restRes htail
        subst hres
        constructor
        · rw [List.filter_cons_of_pos (by simpa using hmem)]
          simp only [List.map_cons]
          rw [hn1]
        · intro r hr hnone
          cases List.mem_cons.mp hr with
          | inl he =>
            subst he
            simp only at hnone ⊢
            rw [show reasonOrChanged (mapGet reasons pkg.name) =
              reasonOrChanged none from by rw [hnone]]
            rfl
          | inr hm => exact hn2 r hm hnone
    · rw [if_neg hmem] at h
      obtain ⟨hn1, hn2⟩ := ih results h
      refine ⟨?_, hn2⟩
      rw [List.filter_cons_of_neg (by simpa using hmem)]
      exact hn1

/-- C9: `bumpPackages` returns one result per selected package, in workspace
discovery order (the order of the packages list, not cascade order); a
package missing from the reasons map gets reason "changed"; the returned
result list is identical whether or not `dryRun` is set; and with
`dryRun = true` no package manifest is ever written. -/
theorem bumpPackages_contract :
    ∀ (packages : List Package) (toBump : List String)
      (reasons : List (String × String)) (ty : BumpType),
      (bumpPackages packages toBump reasons ty true).2 = [] ∧
      (bumpPackages packages toBump reasons ty true).1 =
        (bumpPackages packages toBump reasons ty false).1 ∧
      (∀ (dryRun : Bool) (results : List BumpResult),
        (bumpPackages packages toBump reasons ty dryRun).1 = some results →
        results.map (fun r => r.package) =
          (packages.filter (fun p => decide (p.name ∈ toBump))).map (fun p => p.name) ∧
        (∀ r ∈ results, mapGet reasons r.package = none → r.reason = "changed")) := by
  intro packages toBump reasons ty
  exact ⟨bumpPackagesAux_dry_no_writes toBump reasons ty packages,
    bumpPackagesAux_dryRun_same_results toBump reasons ty packages true false,
    fun dryRun results h => bumpPackagesAux_results_spec toBump reasons ty dryRun
      packages results h⟩

/-- C9 witness: a two-package workspace where only pkg-a is bumped; the
contract theorem yields the result names and the dry-run frame facts. -/
theorem bumpPackages_contract_witness :
    (bumpPackages
        [⟨"pkg-a", "1.0.0", "packages/a", false, []⟩,
         ⟨"pkg-b", "2.0.0", "packages/b", false, []⟩]
        ["pkg-a"] [] .patch true).2 = [] ∧
    (bumpPackages
        [⟨"pkg-a", "1.0.0", "packages/a", false, []⟩,
         ⟨"pkg-b", "2.0.0", "packages/b", false, []⟩]
        ["pkg-a"] [] .patch true).1 =
      (bumpPackages
        [⟨"pkg-a", "1.0.0", "packages/a", false, []⟩,
         ⟨"pkg-b", "2.0.0", "packages/b", false, []⟩]
        ["pkg-a"] [] .patch false).1 ∧
    [BumpResult.mk "pkg-a" "1.0.0" "1.0.1" "changed"].map (fun r => r.package) =
      (([⟨"pkg-a", "1.0.0", "packages/a", false, []⟩,
         ⟨"pkg-b", "2.0.0", "packages/b", false, []⟩] : List Package).filter
        (fun p => decide (p.name ∈ (["pkg-a"] : List String)))).map (fun p => p.name) := by
  have h := bumpPackages_contract
    [⟨"pkg-a", "1.0.0", "packages/a", false, []⟩,
     ⟨"pkg-b", "2.0.0", "packages/b", false, []⟩]
    ["pkg-a"] [] .patch
  exact ⟨h.1, h.2.1,
    (h.2.2 true [BumpResult.mk "pkg-a" "1.0.0" "1.0.1" "changed"] (by decide)).1⟩

end Monobump
